import Mathlib

/-!
Verification of the span-resolution and node-classification core of the
find-jsx-strings scanner.

The source text is modelled as a list of UTF-16 code units (`List Nat`),
matching the host language's string representation: the scanner iterates
with an index `i` over code units (`charCodeAt`), while the parser's span
offsets count encoded (UTF-8) bytes.  All definitions below are direct
translations of the corresponding functions of the scanner source file.
-/

/-- Translation of `byteLengthCharCode` from the source: the number of
encoded bytes the scanner charges for one UTF-16 code unit. -/
def byteLengthCharCode (code : Nat) : Nat :=
  if code < 0x0080 then 1
  else if code < 0x0800 then 2
  else if code < 0xd800 then 3
  else if code < 0xdfff then 2
  else 3

theorem byteLengthCharCode_pos (code : Nat) : 1 ≤ byteLengthCharCode code := by
  unfold byteLengthCharCode
  split_ifs <;> omega

/-- UTF-8 byte length of a single Unicode code point. -/
def utf8CodepointLen (cp : Nat) : Nat :=
  if cp < 0x80 then 1
  else if cp < 0x800 then 2
  else if cp < 0x10000 then 3
  else 4

/-- High (leading) surrogate code unit. -/
def isHighSurrogate (c : Nat) : Bool :=
  decide (0xd800 ≤ c) && decide (c < 0xdc00)

/-- Low (trailing) surrogate code unit. -/
def isLowSurrogate (c : Nat) : Bool :=
  decide (0xdc00 ≤ c) && decide (c < 0xe000)

/-- UTF-8 byte length of the string denoted by a list of UTF-16 code
units: a proper surrogate pair encodes one astral code point (4 bytes);
every other unit encodes itself. -/
def utf8LenOfUnits : List Nat → Nat
  | [] => 0
  | c1 :: c2 :: rest =>
    if isHighSurrogate c1 && isLowSurrogate c2 then 4 + utf8LenOfUnits rest
    else utf8CodepointLen c1 + utf8LenOfUnits (c2 :: rest)
  | [c1] => utf8CodepointLen c1

/-- Total number of encoded bytes the scanner's running byte offset
advances over a whole code-unit list. -/
def walkedBytes (l : List Nat) : Nat :=
  (l.map byteLengthCharCode).sum

/-- A well-formed UTF-16 code-unit list: units are 16-bit, high
surrogates are followed by low surrogates, low surrogates never appear
unpaired. -/
def wellFormedUnits : List Nat → Bool
  | [] => true
  | c :: rest =>
    if isHighSurrogate c then
      match rest with
      | c2 :: rest2 => isLowSurrogate c2 && wellFormedUnits rest2
      | [] => false
    else !isLowSurrogate c && decide (c < 0x10000) && wellFormedUnits rest

/-- Encoded byte offset of the scanner at code-unit position `k`:
the sum of the per-unit byte widths of the first `k` units. -/
def byteOffsetAt (content : List Nat) (k : Nat) : Nat :=
  ((content.take k).map byteLengthCharCode).sum

theorem byteOffsetAt_zero (content : List Nat) : byteOffsetAt content 0 = 0 := rfl

theorem byteOffsetAt_cons (c : Nat) (rest : List Nat) (k : Nat) :
    byteOffsetAt (c :: rest) (k + 1) = byteLengthCharCode c + byteOffsetAt rest k := by
  simp [byteOffsetAt, List.take_succ_cons]

/-- State of the scanning loop inside `report`, one field per mutable
variable of the source (`startLine.lineNr`, `startLine.start`,
`endLine.lineNr`, `endLine.end`, `start`, `end`, `byteIndex`). -/
structure ScanState where
  startLineNr : Nat
  startLineStart : Nat
  endLineNr : Nat
  endLineEnd : Option Nat
  startIdx : Nat
  stopIdx : Nat
  byteIndex : Nat
deriving Repr, DecidableEq

/-- One iteration of the scanning loop of `report` at code unit `code`,
native index `i`.  Returns the updated state and whether the loop broke
(the `break` taken when a line terminator is reached with the running
byte offset at or past `byteEnd`). -/
def scanStep (byteStart byteEnd code i : Nat) (s : ScanState) : ScanState × Bool :=
  let s1 := if code = 10 ∧ s.byteIndex < byteStart then
      { s with startLineNr := s.startLineNr + 1, startLineStart := i + 1 } else s
  if code = 10 ∧ ¬ s.byteIndex < byteEnd then
    ({ s1 with endLineEnd := some i }, true)
  else
    let s2 := if code = 10 then { s1 with endLineNr := s1.endLineNr + 1 } else s1
    let s3 := if s2.byteIndex = byteStart then { s2 with startIdx := i } else s2
    let s4 := if s3.byteIndex = byteEnd then { s3 with stopIdx := i } else s3
    ({ s4 with byteIndex := s4.byteIndex + byteLengthCharCode code }, false)

/-- The scanning loop of `report` over the remaining code units,
carrying the native index `i`. -/
def scanLoop (byteStart byteEnd : Nat) : List Nat → Nat → ScanState → ScanState
  | [], _, s => s
  | code :: rest, i, s =>
    match scanStep byteStart byteEnd code i s with
    | (s2, true) => s2
    | (s2, false) => scanLoop byteStart byteEnd rest (i + 1) s2

/-- Initial loop state of `report`. -/
def initState : ScanState :=
  { startLineNr := 0, startLineStart := 0, endLineNr := 0, endLineEnd := none
    startIdx := 0, stopIdx := 0, byteIndex := 0 }

/-- The line/offset resolution `report` computes for a span
`[byteStart, byteEnd)` over `content`. -/
def resolve (content : List Nat) (byteStart byteEnd : Nat) : ScanState :=
  scanLoop byteStart byteEnd content 0 initState

/-- The excerpt `report` slices out of the source:
`sourceContent.slice(startLine.start, endLine.end)`, where an absent
`endLine.end` slices to the end of the text. -/
def excerpt (content : List Nat) (r : ScanState) : List Nat :=
  match r.endLineEnd with
  | some e => (content.take e).drop r.startLineStart
  | none => content.drop r.startLineStart

/-- Number of line-terminator characters in a code-unit list. -/
def newlineCount (l : List Nat) : Nat :=
  (l.filter (fun c => c == 10)).length

theorem resolve_sanity_ascii : resolve [104, 105] 0 2 =
    { startLineNr := 0, startLineStart := 0, endLineNr := 0, endLineEnd := none
      startIdx := 0, stopIdx := 0, byteIndex := 2 } := by decide

theorem resolve_sanity_terminator : resolve [97, 98, 10, 99, 100] 0 2 =
    { startLineNr := 0, startLineStart := 0, endLineNr := 0, endLineEnd := some 2
      startIdx := 0, stopIdx := 0, byteIndex := 2 } := by decide

theorem byteLengthCharCode_newline : byteLengthCharCode 10 = 1 := rfl

theorem newlineCount_cons (c : Nat) (xs : List Nat) :
    newlineCount (c :: xs) = (if c = 10 then 1 else 0) + newlineCount xs := by
  simp only [newlineCount, List.filter_cons]
  split_ifs with h1 <;> simp_all [Nat.add_comm]

theorem scanStep_break (byteStart byteEnd code i : Nat) (s : ScanState)
    (hc : code = 10) (hb : ¬ s.byteIndex < byteEnd) (hlt : ¬ s.byteIndex < byteStart) :
    scanStep byteStart byteEnd code i s = ({ s with endLineEnd := some i }, true) := by
  unfold scanStep
  simp [hc, hb, hlt]

theorem scanStep_break_start (byteStart byteEnd code i : Nat) (s : ScanState)
    (hc : code = 10) (hb : ¬ s.byteIndex < byteEnd) (hlt : s.byteIndex < byteStart) :
    scanStep byteStart byteEnd code i s =
      ({ s with startLineNr := s.startLineNr + 1, startLineStart := i + 1,
                endLineEnd := some i }, true) := by
  unfold scanStep
  simp [hc, hb, hlt]

theorem scanStep_nl (byteStart byteEnd code i : Nat) (s : ScanState)
    (hc : code = 10) (hb : s.byteIndex < byteEnd) :
    scanStep byteStart byteEnd code i s =
      ({ s with
          startLineNr := if s.byteIndex < byteStart then s.startLineNr + 1 else s.startLineNr,
          startLineStart := if s.byteIndex < byteStart then i + 1 else s.startLineStart,
          endLineNr := s.endLineNr + 1,
          startIdx := if s.byteIndex = byteStart then i else s.startIdx,
          byteIndex := s.byteIndex + 1 }, false) := by
  have hne : s.byteIndex ≠ byteEnd := Nat.ne_of_lt hb
  subst hc
  by_cases hlt : s.byteIndex < byteStart
  · have hnes : s.byteIndex ≠ byteStart := Nat.ne_of_lt hlt
    unfold scanStep
    simp [hb, hne, hlt, hnes, byteLengthCharCode_newline]
  · by_cases heq : s.byteIndex = byteStart
    · have hA : ¬ byteEnd ≤ byteStart := by omega
      have hB : ¬ byteStart = byteEnd := by omega
      unfold scanStep
      simp [hb, hne, hlt, heq, hA, hB, byteLengthCharCode_newline]
    · unfold scanStep
      simp [hb, hne, hlt, heq, byteLengthCharCode_newline]

theorem scanStep_other (byteStart byteEnd code i : Nat) (s : ScanState)
    (hc : code ≠ 10) :
    scanStep byteStart byteEnd code i s =
      ({ s with
          startIdx := if s.byteIndex = byteStart then i else s.startIdx,
          stopIdx := if s.byteIndex = byteEnd then i else s.stopIdx,
          byteIndex := s.byteIndex + byteLengthCharCode code }, false) := by
  unfold scanStep
  split_ifs <;> simp_all

theorem scanLoop_cons (byteStart byteEnd code i : Nat) (rest : List Nat) (s : ScanState) :
    scanLoop byteStart byteEnd (code :: rest) i s =
      (match scanStep byteStart byteEnd code i s with
       | (s2, true) => s2
       | (s2, false) => scanLoop byteStart byteEnd rest (i + 1) s2) := rfl

/-- The scan never lets the start line overtake the end line: every line
terminator that advances the start-line counter (running byte offset
below `byteStart`) also advances the end-line counter, because
`byteStart ≤ byteEnd` and the loop breaks before counting otherwise. -/
theorem scanLoop_line_le (byteStart byteEnd : Nat) (h : byteStart ≤ byteEnd) :
    ∀ (l : List Nat) (i : Nat) (s : ScanState), s.startLineNr ≤ s.endLineNr →
    (scanLoop byteStart byteEnd l i s).startLineNr ≤
      (scanLoop byteStart byteEnd l i s).endLineNr := by
  intro l
  induction l with
  | nil => intro i s hs; simpa [scanLoop] using hs
  | cons code rest ih =>
    intro i s hs
    by_cases hc : code = 10
    · by_cases hb : s.byteIndex < byteEnd
      · rw [scanLoop_cons, scanStep_nl byteStart byteEnd code i s hc hb]
        apply ih
        simp only []
        split_ifs <;> omega
      · have hlt : ¬ s.byteIndex < byteStart := by omega
        rw [scanLoop_cons, scanStep_break byteStart byteEnd code i s hc hb hlt]
        exact hs
    · rw [scanLoop_cons, scanStep_other byteStart byteEnd code i s hc]
      apply ih
      exact hs

/-- Once the running byte offset is strictly past both span ends, the
recorded native start/stop indices never change again. -/
theorem scanLoop_freeze (byteStart byteEnd : Nat) :
    ∀ (l : List Nat) (i : Nat) (s : ScanState),
    byteStart < s.byteIndex → byteEnd < s.byteIndex →
    (scanLoop byteStart byteEnd l i s).startIdx = s.startIdx ∧
      (scanLoop byteStart byteEnd l i s).stopIdx = s.stopIdx := by
  intro l
  induction l with
  | nil => intro i s h1 h2; simp [scanLoop]
  | cons code rest ih =>
    intro i s h1 h2
    by_cases hc : code = 10
    · have hb : ¬ s.byteIndex < byteEnd := by omega
      have hlt : ¬ s.byteIndex < byteStart := by omega
      rw [scanLoop_cons, scanStep_break byteStart byteEnd code i s hc hb hlt]
      exact ⟨rfl, rfl⟩
    · rw [scanLoop_cons, scanStep_other byteStart byteEnd code i s hc]
      have hs : s.byteIndex ≠ byteStart := by omega
      have he : s.byteIndex ≠ byteEnd := by omega
      have hw : 1 ≤ byteLengthCharCode code := byteLengthCharCode_pos code
      simp only [hs, he, if_neg, if_false]
      apply ih
      · simp only []; omega
      · simp only []; omega

/-- If the end offset `byteEnd` is attained on a code unit that is not a
line terminator, the recorded native stop index is at least the recorded
native start index: the stop assignment runs before any break can occur,
and the byte offset is strictly increasing so neither index moves later. -/
theorem scanLoop_attain (byteStart byteEnd : Nat) (h : byteStart ≤ byteEnd) :
    ∀ (l : List Nat) (k i : Nat) (s : ScanState), k < l.length →
    l.getD k 0 ≠ 10 → s.byteIndex + byteOffsetAt l k = byteEnd →
    s.startIdx ≤ i →
    (scanLoop byteStart byteEnd l i s).startIdx ≤
      (scanLoop byteStart byteEnd l i s).stopIdx := by
  intro l
  induction l with
  | nil => intro k i s hk; simp at hk
  | cons code rest ih =>
    intro k i s hk hnl hoff hstart
    cases k with
    | zero =>
      have hbe : s.byteIndex = byteEnd := by
        rw [byteOffsetAt_zero] at hoff; omega
      have hc : code ≠ 10 := by simpa using hnl
      rw [scanLoop_cons, scanStep_other byteStart byteEnd code i s hc]
      have hw : 1 ≤ byteLengthCharCode code := byteLengthCharCode_pos code
      have hfr := scanLoop_freeze byteStart byteEnd rest (i + 1)
        { s with startIdx := if s.byteIndex = byteStart then i else s.startIdx,
                 stopIdx := if s.byteIndex = byteEnd then i else s.stopIdx,
                 byteIndex := s.byteIndex + byteLengthCharCode code }
        (by show byteStart < s.byteIndex + byteLengthCharCode code; omega)
        (by show byteEnd < s.byteIndex + byteLengthCharCode code; omega)
      rw [hfr.1, hfr.2]
      show (if s.byteIndex = byteStart then i else s.startIdx) ≤
        (if s.byteIndex = byteEnd then i else s.stopIdx)
      split_ifs <;> omega
    | succ k2 =>
      have hk2 : k2 < rest.length := by simpa using hk
      have hnl2 : rest.getD k2 0 ≠ 10 := by simpa using hnl
      have hoff2 : s.byteIndex + byteLengthCharCode code + byteOffsetAt rest k2 = byteEnd := by
        rw [byteOffsetAt_cons] at hoff; omega
      have hw : 1 ≤ byteLengthCharCode code := byteLengthCharCode_pos code
      have hb : s.byteIndex < byteEnd := by
        have hnn : 0 ≤ byteOffsetAt rest k2 := Nat.zero_le _
        omega
      by_cases hc : code = 10
      · rw [scanLoop_cons, scanStep_nl byteStart byteEnd code i s hc hb]
        apply ih k2 (i + 1)
        · exact hk2
        · exact hnl2
        · simp only []
          rw [hc] at hoff2
          rw [byteLengthCharCode_newline] at hoff2
          omega
        · simp only []
          split_ifs <;> omega
      · rw [scanLoop_cons, scanStep_other byteStart byteEnd code i s hc]
        apply ih k2 (i + 1)
        · exact hk2
        · exact hnl2
        · simp only []; omega
        · simp only []
          split_ifs <;> omega

/-- When the end offset falls exactly on a line terminator, the scan
breaks at that terminator: the recorded end boundary is the terminator's
native index, and the end line counter equals the number of terminators
strictly before it (the line that terminator ends). -/
theorem scanLoop_terminator (byteStart byteEnd : Nat) (h : byteStart ≤ byteEnd) :
    ∀ (l : List Nat) (k i : Nat) (s : ScanState), k < l.length →
    l.getD k 0 = 10 → s.byteIndex + byteOffsetAt l k = byteEnd →
    (scanLoop byteStart byteEnd l i s).endLineEnd = some (i + k) ∧
    (scanLoop byteStart byteEnd l i s).endLineNr = s.endLineNr + newlineCount (l.take k) := by
  intro l
  induction l with
  | nil => intro k i s hk; simp at hk
  | cons code rest ih =>
    intro k i s hk hnl hoff
    cases k with
    | zero =>
      have hbe : s.byteIndex = byteEnd := by
        rw [byteOffsetAt_zero] at hoff; omega
      have hc : code = 10 := by simpa using hnl
      have hb : ¬ s.byteIndex < byteEnd := by omega
      have hlt : ¬ s.byteIndex < byteStart := by omega
      rw [scanLoop_cons, scanStep_break byteStart byteEnd code i s hc hb hlt]
      constructor
      · rfl
      · simp [newlineCount]
    | succ k2 =>
      have hk2 : k2 < rest.length := by simpa using hk
      have hnl2 : rest.getD k2 0 = 10 := by simpa using hnl
      have hw : 1 ≤ byteLengthCharCode code := byteLengthCharCode_pos code
      have hoff2 : s.byteIndex + byteLengthCharCode code + byteOffsetAt rest k2 = byteEnd := by
        rw [byteOffsetAt_cons] at hoff; omega
      have hb : s.byteIndex < byteEnd := by
        have hnn : 0 ≤ byteOffsetAt rest k2 := Nat.zero_le _
        omega
      by_cases hc : code = 10
      · rw [scanLoop_cons, scanStep_nl byteStart byteEnd code i s hc hb]
        have hoff3 : s.byteIndex + 1 + byteOffsetAt rest k2 = byteEnd := by
          rw [hc, byteLengthCharCode_newline] at hoff2; omega
        have hind := ih k2 (i + 1)
          { s with
              startLineNr := if s.byteIndex < byteStart then s.startLineNr + 1 else s.startLineNr,
              startLineStart := if s.byteIndex < byteStart then i + 1 else s.startLineStart,
              endLineNr := s.endLineNr + 1,
              startIdx := if s.byteIndex = byteStart then i else s.startIdx,
              byteIndex := s.byteIndex + 1 }
          hk2 hnl2 (by simp only []; omega)
        constructor
        · rw [hind.1]
          have harith : i + 1 + k2 = i + (k2 + 1) := by omega
          rw [harith]
        · rw [hind.2]
          simp [List.take_succ_cons, newlineCount_cons, hc]
          omega
      · rw [scanLoop_cons, scanStep_other byteStart byteEnd code i s hc]
        have hind := ih k2 (i + 1)
          { s with
              startIdx := if s.byteIndex = byteStart then i else s.startIdx,
              stopIdx := if s.byteIndex = byteEnd then i else s.stopIdx,
              byteIndex := s.byteIndex + byteLengthCharCode code }
          hk2 hnl2 (by simp only []; omega)
        constructor
        · rw [hind.1]
          have harith : i + 1 + k2 = i + (k2 + 1) := by omega
          rw [harith]
        · rw [hind.2]
          simp [List.take_succ_cons, newlineCount_cons, hc]

/-- Intra-line character offset of the span start: `start - startLine.start`
(`pre` of the first rendered line). -/
def startLineCharOffset (r : ScanState) : Int :=
  (r.startIdx : Int) - (r.startLineStart : Int)

/-- Intra-line character offset of the span end for a single-line span:
`end - index` with `index = startLine.start` (`post` of the last rendered
line when it is also the first). -/
def endLineCharOffset (r : ScanState) : Int :=
  (r.stopIdx : Int) - (r.startLineStart : Int)

/-- Claim C1 (amended).  For every span with `byteStart ≤ byteEnd` the
resolver yields `startLine ≤ endLine`; and whenever `byteEnd` is attained
at a code unit of the text that is not a line terminator, equal start and
end lines imply `startLineCharOffset ≤ endLineCharOffset`.  (The offset
clause genuinely needs the attainment proviso: when `byteEnd` lands on a
line terminator or at the end of the text, the native stop index is never
assigned and keeps its initial value 0.) -/
theorem claim1_thm (content : List Nat) (byteStart byteEnd : Nat)
    (h : byteStart ≤ byteEnd) :
    (resolve content byteStart byteEnd).startLineNr ≤
      (resolve content byteStart byteEnd).endLineNr ∧
    (∀ k, k < content.length → content.getD k 0 ≠ 10 →
      byteOffsetAt content k = byteEnd →
      (resolve content byteStart byteEnd).startLineNr =
        (resolve content byteStart byteEnd).endLineNr →
      startLineCharOffset (resolve content byteStart byteEnd) ≤
        endLineCharOffset (resolve content byteStart byteEnd)) := by
  constructor
  · exact scanLoop_line_le byteStart byteEnd h content 0 initState (le_refl 0)
  · intro k hk hnl hoff hline
    have hinit : initState.byteIndex + byteOffsetAt content k = byteEnd := by
      show 0 + byteOffsetAt content k = byteEnd
      omega
    have hatt := scanLoop_attain byteStart byteEnd h content k 0 initState
      hk hnl hinit (le_refl 0)
    unfold resolve at hline ⊢
    unfold startLineCharOffset endLineCharOffset
    omega

/-- Witness for C1 at the concrete source "ab" and span `[0, 1)`. -/
theorem claim1_witness :
    (resolve [97, 98] 0 1).startLineNr ≤ (resolve [97, 98] 0 1).endLineNr ∧
    startLineCharOffset (resolve [97, 98] 0 1) ≤
      endLineCharOffset (resolve [97, 98] 0 1) :=
  ⟨(claim1_thm [97, 98] 0 1 (by decide)).1,
   (claim1_thm [97, 98] 0 1 (by decide)).2 1 (by decide) (by decide)
     (by decide) (by decide)⟩

/-- Counterexample to C1 as stated: source "xab" with span `[1, 3)`
(both offsets within the encoded length, single-line) resolves with
`startLineCharOffset = 1 > 0 = endLineCharOffset`, because `byteEnd = 3`
equals the total encoded length and is never attained inside the loop,
so the stop index keeps its initial value 0. -/
theorem claim1_counterexample :
    1 ≤ 3 ∧ 3 ≤ walkedBytes [120, 97, 98] ∧
    (resolve [120, 97, 98] 1 3).startLineNr =
      (resolve [120, 97, 98] 1 3).endLineNr ∧
    ¬ startLineCharOffset (resolve [120, 97, 98] 1 3) ≤
      endLineCharOffset (resolve [120, 97, 98] 1 3) := by decide

/-- Claim C2: evaluation at the failing input.  The UTF-16 code unit
0xDFFF is a low surrogate, so inside a well-formed string it only occurs
as the trailing half of a surrogate pair encoding one astral code point
(4 UTF-8 bytes, e.g. U+103FF = D800 DFFF); the scanner charges
2 + 3 = 5 bytes because `byteLengthCharCode` tests `code < 0xdfff`
instead of `code <= 0xdfff`. -/
theorem claim2_thm :
    byteLengthCharCode 0xdfff = 3 ∧
    wellFormedUnits [0xd800, 0xdfff] = true ∧
    walkedBytes [0xd800, 0xdfff] = 5 ∧
    utf8LenOfUnits [0xd800, 0xdfff] = 4 ∧
    walkedBytes [0xd800, 0xdfff] ≠ utf8LenOfUnits [0xd800, 0xdfff] := by decide

theorem walkedBytes_cons (c : Nat) (l : List Nat) :
    walkedBytes (c :: l) = byteLengthCharCode c + walkedBytes l := by
  simp [walkedBytes]

theorem nonSurrogate_bounds (c : Nat) (h1 : isHighSurrogate c = false)
    (h2 : isLowSurrogate c = false) : c < 0xd800 ∨ 0xe000 ≤ c := by
  simp [isHighSurrogate, isLowSurrogate] at h1 h2
  omega

theorem blc_eq_utf8 (c : Nat) (hs : c < 0xd800 ∨ 0xe000 ≤ c)
    (h3 : c < 0x10000) : byteLengthCharCode c = utf8CodepointLen c := by
  unfold byteLengthCharCode utf8CodepointLen
  split_ifs <;> omega

theorem blc_surrogate (c : Nat) (h1 : 0xd800 ≤ c) (h2 : c < 0xdfff) :
    byteLengthCharCode c = 2 := by
  unfold byteLengthCharCode
  split_ifs <;> omega

/-- Outside the single slipped code unit 0xDFFF, the scanner's byte walk
agrees with the UTF-8 length of every well-formed string. -/
theorem walkedBytes_eq_utf8Len (l : List Nat) (hwf : wellFormedUnits l = true)
    (hno : l.contains 0xdfff = false) : walkedBytes l = utf8LenOfUnits l := by
  induction l using utf8LenOfUnits.induct with
  | case1 => rfl
  | case2 c1 c2 rest hpair ih =>
    have hhigh : isHighSurrogate c1 = true := by
      rcases Bool.and_eq_true_iff.mp hpair with ⟨ha, _⟩
      exact ha
    have hlow : isLowSurrogate c2 = true := by
      rcases Bool.and_eq_true_iff.mp hpair with ⟨_, hb⟩
      exact hb
    have hwf2 : wellFormedUnits rest = true := by
      unfold wellFormedUnits at hwf
      rw [if_pos hhigh] at hwf
      exact (Bool.and_eq_true_iff.mp hwf).2
    have hno2 : rest.contains 0xdfff = false := by
      simp [List.contains_cons] at hno
      simpa using hno.2.2
    have hc2ne : c2 ≠ 0xdfff := by
      simp [List.contains_cons] at hno
      exact fun hh => hno.2.1 hh.symm
    have hb1 : 0xd800 ≤ c1 ∧ c1 < 0xdc00 := by
      simpa [isHighSurrogate] using hhigh
    have hb2 : 0xdc00 ≤ c2 ∧ c2 < 0xe000 := by
      simpa [isLowSurrogate] using hlow
    rw [walkedBytes_cons, walkedBytes_cons]
    unfold utf8LenOfUnits
    rw [if_pos hpair]
    rw [blc_surrogate c1 (by omega) (by omega)]
    rw [blc_surrogate c2 (by omega) (by omega)]
    rw [ih hwf2 hno2]
    omega
  | case3 c1 c2 rest hpair ih =>
    have hhigh : isHighSurrogate c1 = false := by
      cases hh : isHighSurrogate c1
      · rfl
      · unfold wellFormedUnits at hwf
        rw [if_pos hh] at hwf
        have hlow2 : isLowSurrogate c2 = true := (Bool.and_eq_true_iff.mp hwf).1
        rw [hh, hlow2] at hpair
        simp at hpair
    have hrest : wellFormedUnits (c2 :: rest) = true := by
      unfold wellFormedUnits at hwf
      rw [if_neg (by simp [hhigh])] at hwf
      exact (Bool.and_eq_true_iff.mp hwf).2
    have hlow1 : isLowSurrogate c1 = false := by
      unfold wellFormedUnits at hwf
      rw [if_neg (by simp [hhigh])] at hwf
      have := (Bool.and_eq_true_iff.mp hwf).1
      have h2 := (Bool.and_eq_true_iff.mp this).1
      simpa using h2
    have hsize : c1 < 0x10000 := by
      unfold wellFormedUnits at hwf
      rw [if_neg (by simp [hhigh])] at hwf
      have := (Bool.and_eq_true_iff.mp hwf).1
      have h2 := (Bool.and_eq_true_iff.mp this).2
      simpa using h2
    have hno2 : (c2 :: rest).contains 0xdfff = false := by
      simp [List.contains_cons] at hno ⊢
      exact ⟨hno.2.1, hno.2.2⟩
    rw [walkedBytes_cons]
    unfold utf8LenOfUnits
    rw [if_neg (by simp [hpair])]
    rw [blc_eq_utf8 c1 (nonSurrogate_bounds c1 hhigh hlow1) hsize]
    rw [ih hrest hno2]
  | case4 c1 =>
    have hhigh : isHighSurrogate c1 = false := by
      cases hh : isHighSurrogate c1
      · rfl
      · unfold wellFormedUnits at hwf
        rw [if_pos hh] at hwf
        simp at hwf
    have hlow1 : isLowSurrogate c1 = false := by
      unfold wellFormedUnits at hwf
      rw [if_neg (by simp [hhigh])] at hwf
      have := (Bool.and_eq_true_iff.mp hwf).1
      have h2 := (Bool.and_eq_true_iff.mp this).1
      simpa using h2
    have hsize : c1 < 0x10000 := by
      unfold wellFormedUnits at hwf
      rw [if_neg (by simp [hhigh])] at hwf
      have := (Bool.and_eq_true_iff.mp hwf).1
      have h2 := (Bool.and_eq_true_iff.mp this).2
      simpa using h2
    show byteLengthCharCode c1 + 0 = utf8CodepointLen c1
    rw [blc_eq_utf8 c1 (nonSurrogate_bounds c1 hhigh hlow1) hsize]
    omega

/-- Claim C3: a span whose end offset falls exactly on a line terminator
closes the excerpt at that terminator and keeps the end line on the line
the terminator ends. -/
theorem claim3_thm (content : List Nat) (byteStart byteEnd k : Nat)
    (h : byteStart ≤ byteEnd) (hk : k < content.length)
    (hnl : content.getD k 0 = 10) (hoff : byteOffsetAt content k = byteEnd) :
    (resolve content byteStart byteEnd).endLineEnd = some k ∧
    (resolve content byteStart byteEnd).endLineNr = newlineCount (content.take k) ∧
    excerpt content (resolve content byteStart byteEnd) =
      (content.take k).drop (resolve content byteStart byteEnd).startLineStart := by
  have hinit : initState.byteIndex + byteOffsetAt content k = byteEnd := by
    show 0 + byteOffsetAt content k = byteEnd
    omega
  have hterm := scanLoop_terminator byteStart byteEnd h content k 0 initState hk hnl hinit
  have h1 : (resolve content byteStart byteEnd).endLineEnd = some k := by
    unfold resolve
    rw [hterm.1]
    simp
  refine ⟨h1, ?_, ?_⟩
  · unfold resolve
    rw [hterm.2]
    show 0 + newlineCount (content.take k) = newlineCount (content.take k)
    omega
  · unfold excerpt
    rw [h1]

/-- Witness for C3: source "ab\ncd" with span `[0, 2)` whose end offset 2
falls on the terminator at native index 2. -/
theorem claim3_witness :
    (resolve [97, 98, 10, 99, 100] 0 2).endLineEnd = some 2 ∧
    (resolve [97, 98, 10, 99, 100] 0 2).endLineNr =
      newlineCount ([97, 98, 10, 99, 100].take 2) ∧
    excerpt [97, 98, 10, 99, 100] (resolve [97, 98, 10, 99, 100] 0 2) =
      ([97, 98, 10, 99, 100].take 2).drop
        (resolve [97, 98, 10, 99, 100] 0 2).startLineStart :=
  claim3_thm [97, 98, 10, 99, 100] 0 2 2 (by decide) (by decide) (by decide) (by decide)

/-- Code units the host language's trim removes (WhiteSpace and
LineTerminator characters). -/
def jsWhitespaceChar (c : Nat) : Bool :=
  [9, 10, 11, 12, 13, 32, 160, 5760, 8192, 8193, 8194, 8195, 8196, 8197,
   8198, 8199, 8200, 8201, 8202, 8232, 8233, 8239, 8287, 12288, 65279].contains c

/-- Translation of the trim call: leading and trailing whitespace removed. -/
def trimList (l : List Nat) : List Nat :=
  ((l.dropWhile jsWhitespaceChar).reverse.dropWhile jsWhitespaceChar).reverse

/-- The `skipAttributes` option: the source value is `boolean | Array<string>`. -/
inductive SkipAttrs where
  | skipAll : SkipAttrs
  | named (names : List (List Nat)) : SkipAttrs
  | skipNone : SkipAttrs
deriving Repr, DecidableEq

/-- The options record handed to the visitor (one immutable snapshot per run). -/
structure Options where
  skipAttributes : SkipAttrs
  skipText : Bool
  skipPattern : List (List Nat)
  skipFiles : List (List Nat)
  minLength : Nat
  includeLiteral : Bool
  includeTemplate : Bool
deriving Repr, DecidableEq

/-- A JSX attribute name: plain identifier or `namespace:name`. -/
inductive AttrName where
  | ident (value : List Nat) : AttrName
  | namespaced (ns name : List Nat) : AttrName
deriving Repr, DecidableEq

/-- The resolved attribute name the named skip set is compared against:
the identifier's value, or `namespace ++ ":" ++ name`. -/
def resolvedAttrName : AttrName → List Nat
  | .ident v => v
  | .namespaced ns n => ns ++ [58] ++ n

/-- Syntax-tree fragment relevant to the visitor: each constructor is a
node kind the visitor dispatches on; `container` stands for any other
node kind whose children the inherited visitor walks (elements,
expression containers, fragments, ...). Spans carry the parser's raw
byte offsets. -/
inductive Node where
  | jsxText (value : List Nat) (spanStart spanEnd : Nat) : Node
  | stringLit (value : List Nat) (spanStart spanEnd : Nat) : Node
  | templateLit (spanStart spanEnd : Nat) (children : List Node) : Node
  | jsxAttribute (name : AttrName) (value : Option Node) : Node
  | importDecl (children : List Node) : Node
  | tsType (children : List Node) : Node
  | container (children : List Node) : Node
deriving Repr

mutual
/-- The visitor's classification pass: the list of spans handed to
`report`, in visit order, normalized by the module base offset `off`
(`span.start - this.offset`).  Each arm is the corresponding `visitX`
method of `StringVisitor`; `container` is the inherited default that
recurses into children. -/
def visit (o : Options) (off : Nat) : Node → List (Nat × Nat)
  | .jsxText v s e =>
    if o.skipText then []
    else if (trimList v).length < o.minLength then []
    else [(s - off, e - off)]
  | .stringLit v s e =>
    if o.includeLiteral = true ∧ o.minLength ≤ (trimList v).length then
      [(s - off, e - off)]
    else []
  | .templateLit s e cs =>
    (if o.includeTemplate then [(s - off, e - off)] else []) ++ visitList o off cs
  | .jsxAttribute name value =>
    match o.skipAttributes with
    | .skipAll => visitOpt o off value
    | .named names =>
      if names.contains (resolvedAttrName name) then []
      else visitAttrValue o off value
    | .skipNone => visitAttrValue o off value
  | .importDecl _ => []
  | .tsType _ => []
  | .container cs => visitList o off cs

/-- Translation of the string-literal-value branch of `visitJSXAttribute`:
a string-literal value is filtered by trimmed length and reported without
recursion; any other value falls through to the inherited visitor, which
recurses into it. -/
def visitAttrValue (o : Options) (off : Nat) : Option Node → List (Nat × Nat)
  | some (.stringLit v s e) =>
    if (trimList v).length < o.minLength then [] else [(s - off, e - off)]
  | some (.jsxText v s e) => visit o off (.jsxText v s e)
  | some (.templateLit s e cs) => visit o off (.templateLit s e cs)
  | some (.jsxAttribute n v) => visit o off (.jsxAttribute n v)
  | some (.importDecl cs) => visit o off (.importDecl cs)
  | some (.tsType cs) => visit o off (.tsType cs)
  | some (.container cs) => visit o off (.container cs)
  | none => []

/-- The inherited `visitJSXAttribute`: visit the (optional) value. -/
def visitOpt (o : Options) (off : Nat) : Option Node → List (Nat × Nat)
  | none => []
  | some n => visit o off n

/-- The inherited child walk, preserving document order. -/
def visitList (o : Options) (off : Nat) : List Node → List (Nat × Nat)
  | [] => []
  | n :: ns => visit o off n ++ visitList o off ns
end

theorem visit_sanity :
    visit { skipAttributes := .skipNone, skipText := false, skipPattern := [],
            skipFiles := [], minLength := 1, includeLiteral := false,
            includeTemplate := false } 0
      (.container [.jsxText [32, 104, 105] 4 9,
                   .jsxAttribute (.ident [97, 108, 116]) (some (.stringLit [104, 105] 14 18))]) =
      [(4, 9), (14, 18)] := by decide

/-- Options produced by `main` when no flag is given:
`skipText = false`, `minLength = 1`, literals and templates excluded. -/
def defaultOpts : Options :=
  { skipAttributes := .skipNone, skipText := false, skipPattern := [],
    skipFiles := [], minLength := 1, includeLiteral := false,
    includeTemplate := false }

/-- Options for a run with `--min=5`. -/
def minFiveOpts : Options :=
  { skipAttributes := .skipNone, skipText := false, skipPattern := [],
    skipFiles := [], minLength := 5, includeLiteral := false,
    includeTemplate := false }

/-- Options for a run with `--skip-attributes --include-literal`. -/
def skipAllLitOpts : Options :=
  { skipAttributes := .skipAll, skipText := false, skipPattern := [],
    skipFiles := [], minLength := 1, includeLiteral := true,
    includeTemplate := false }

/-- Full behaviour of `visitJSXAttribute` on an attribute carrying a
string-literal value, by case on the skip-attributes policy. -/
theorem visit_attr_stringLit (o : Options) (off : Nat) (name : AttrName)
    (v : List Nat) (s e : Nat) :
    visit o off (.jsxAttribute name (some (.stringLit v s e))) =
      (match o.skipAttributes with
       | .skipAll =>
         if o.includeLiteral = true ∧ o.minLength ≤ (trimList v).length
         then [(s - off, e - off)] else []
       | .named names =>
         if names.contains (resolvedAttrName name) then []
         else if (trimList v).length < o.minLength then []
         else [(s - off, e - off)]
       | .skipNone =>
         if (trimList v).length < o.minLength then []
         else [(s - off, e - off)]) := by
  cases ha : o.skipAttributes <;>
    simp [visit, visitAttrValue, visitOpt, ha]

/-- Claim C5: a JSX text node is handed to `report` iff `skipText` is
unset and its trimmed length reaches `minLength`; with the default
threshold 1 exactly the whitespace-only texts are dropped, and with
threshold 5 a 3-character text is dropped while a 6-character one is
kept. -/
theorem claim5_thm :
    (∀ (o : Options) (off : Nat) (v : List Nat) (s e : Nat),
      visit o off (.jsxText v s e) ≠ [] ↔
        (o.skipText = false ∧ o.minLength ≤ (trimList v).length)) ∧
    (∀ (v : List Nat) (s e : Nat),
      visit defaultOpts 0 (.jsxText v s e) = [(s, e)] ↔ trimList v ≠ []) ∧
    visit minFiveOpts 0 (.jsxText [97, 98, 99] 10 13) = [] ∧
    visit minFiveOpts 0 (.jsxText [97, 98, 99, 100, 101, 102] 10 16) = [(10, 16)] := by
  refine ⟨?_, ?_, by decide, by decide⟩
  · intro o off v s e
    simp only [visit]
    cases hst : o.skipText
    · simp only [Bool.false_eq_true, if_false]
      split_ifs with hlen
      · simp
        omega
      · simp
        omega
    · simp
  · intro v s e
    by_cases hnil : trimList v = []
    · have hlen : (trimList v).length < 1 := by simp [hnil]
      simp [visit, defaultOpts, hlen, hnil]
    · have hlen : ¬ (trimList v).length < 1 := by
        have := List.length_pos.mpr hnil
        omega
      simp [visit, defaultOpts, hlen, hnil]

/-- Claim C9: a reported JSX text finding carries the node's full
(offset-normalized) span, even though only the trimmed value feeds the
length filter — so the highlighted excerpt covers surrounding
whitespace. -/
theorem claim9_thm (o : Options) (off : Nat) (v : List Nat) (s e : Nat)
    (h1 : o.skipText = false) (h2 : o.minLength ≤ (trimList v).length) :
    visit o off (.jsxText v s e) = [(s - off, e - off)] := by
  simp only [visit]
  rw [if_neg (by simp [h1]), if_neg (by omega)]

/-- Witness for C9: the text node "  Hi\n " (leading/trailing whitespace)
with raw span `[12, 21)` under base offset 3 is reported with its full
span `(9, 18)`. -/
theorem claim9_witness :
    defaultOpts.skipText = false ∧
    defaultOpts.minLength ≤ (trimList [32, 32, 72, 105, 10, 32]).length ∧
    visit defaultOpts 3 (.jsxText [32, 32, 72, 105, 10, 32] 12 21) = [(9, 18)] :=
  ⟨rfl, by decide,
   claim9_thm defaultOpts 3 [32, 32, 72, 105, 10, 32] 12 21 rfl (by decide)⟩

/-- Counterexample to C6 as stated: with `skipAttributes = true` the
attribute handler defers to the inherited visitor, which recurses into
the literal value; combined with `--include-literal` the attribute's
value still produces a finding, so the attribute is not "dropped
entirely regardless of other options". -/
theorem claim6_counterexample :
    visit skipAllLitOpts 0
      (.jsxAttribute (.ident [97, 108, 116])
        (some (.stringLit [104, 101, 108, 108, 111] 10 17))) = [(10, 17)] := by
  decide

/-- Claim C6 (amended): on a string-literal-valued attribute,
`skipAttributes = true` suppresses the attribute finding but recursion
still reaches the value (reported exactly when `includeLiteral` is set
and the trimmed length reaches the threshold); a named set drops the
attribute without recursion when the resolved name is listed; otherwise
the attribute is reported iff the trimmed value length reaches the
threshold. -/
theorem claim6_thm (o : Options) (off : Nat) (name : AttrName)
    (v : List Nat) (s e : Nat) :
    visit o off (.jsxAttribute name (some (.stringLit v s e))) =
      (match o.skipAttributes with
       | .skipAll =>
         if o.includeLiteral = true ∧ o.minLength ≤ (trimList v).length
         then [(s - off, e - off)] else []
       | .named names =>
         if names.contains (resolvedAttrName name) then []
         else if (trimList v).length < o.minLength then []
         else [(s - off, e - off)]
       | .skipNone =>
         if (trimList v).length < o.minLength then []
         else [(s - off, e - off)]) :=
  visit_attr_stringLit o off name v s e

/-- Claim C10: visiting an attribute whose value is a string literal
emits at most one finding, under every combination of options: either
the attribute finding (no recursion into the value) or, under skip-all
with include-literal, the value's own literal finding — never both. -/
theorem claim10_thm (o : Options) (off : Nat) (name : AttrName)
    (v : List Nat) (s e : Nat) :
    (visit o off (.jsxAttribute name (some (.stringLit v s e)))).length ≤ 1 := by
  rw [visit_attr_stringLit]
  cases o.skipAttributes <;> simp only [] <;> split_ifs <;> simp

/-- Whether `hay` starts with `pat` (code-unit lists). -/
def startsWithList : List Nat → List Nat → Bool
  | _, [] => true
  | [], _ :: _ => false
  | a :: as, b :: bs => a == b && startsWithList as bs

/-- Translation of the includes call: contiguous substring test. -/
def containsSub : List Nat → List Nat → Bool
  | [], pat => pat.isEmpty
  | a :: rest, pat => startsWithList (a :: rest) pat || containsSub rest pat

/-- Decimal digit count with explicit fuel (enough for any `n`). -/
def digitsLen : Nat → Nat → Nat
  | 0, _ => 0
  | fuel + 1, n => if n < 10 then 1 else digitsLen fuel (n / 10) + 1

/-- Number of decimal digits of `n`, i.e. `String(n).length`. -/
def numDigits (n : Nat) : Nat := digitsLen (n + 1) n

/-- Outcome of one `report` call: either the skip-pattern veto fired (an
early return with no output), or output was produced.  The source has no
other exit: no exception, no validation failure. -/
inductive ReportResult where
  | vetoed : ReportResult
  | emitted (startLineNr endLineNr : Nat) (src : List Nat) (pad : Nat) : ReportResult
deriving Repr, DecidableEq

/-- The observable result of `report(byteStart, byteEnd)`: resolve the
span, slice the excerpt, veto if any skip pattern occurs in it,
otherwise emit (header line number, end line counter, excerpt, padding
width `Math.max(4, String(endLine.lineNr).length)`). -/
def reportResult (content : List Nat) (skipPattern : List (List Nat))
    (byteStart byteEnd : Nat) : ReportResult :=
  let r := resolve content byteStart byteEnd
  let src := excerpt content r
  if skipPattern.any (fun p => containsSub src p) then .vetoed
  else .emitted r.startLineNr r.endLineNr src (max 4 (numDigits r.endLineNr))

/-- The line-number padding width `report` uses:
`Math.max(4, String(endLine.lineNr).length)` — note `endLine.lineNr` is
the 0-based end line counter. -/
def reportPad (content : List Nat) (byteStart byteEnd : Nat) : Nat :=
  max 4 (numDigits (resolve content byteStart byteEnd).endLineNr)

/-- Counterexample to C4 as stated: the malformed span `[2, 0)`
(`byteEnd < byteStart`) over the source "ab" is not detected and not
surfaced as a fault — `report` runs the same scan and produces output
(header at line 1, the full line as excerpt). -/
theorem claim4_counterexample :
    (0 : Nat) < 2 ∧
    reportResult [97, 98] [] 2 0 = ReportResult.emitted 0 0 [97, 98] 4 := by
  decide

/-- Claim C4 (amended): the span resolver performs no validation and
never fails.  Every call — malformed span or not — either hits the
skip-pattern veto (silently producing nothing) or produces output; with
no skip patterns configured it always produces output. -/
theorem claim4_thm (content : List Nat) (skipPattern : List (List Nat))
    (byteStart byteEnd : Nat) :
    (reportResult content skipPattern byteStart byteEnd = .vetoed ∨
      ∃ sl el src pad,
        reportResult content skipPattern byteStart byteEnd = .emitted sl el src pad) ∧
    (∃ sl el src pad,
      reportResult content [] byteStart byteEnd = .emitted sl el src pad) := by
  constructor
  · by_cases hv : (skipPattern.any fun p =>
        containsSub (excerpt content (resolve content byteStart byteEnd)) p) = true
    · exact Or.inl (by simp [reportResult, hv])
    · refine Or.inr ⟨(resolve content byteStart byteEnd).startLineNr,
        (resolve content byteStart byteEnd).endLineNr,
        excerpt content (resolve content byteStart byteEnd),
        max 4 (numDigits (resolve content byteStart byteEnd).endLineNr), ?_⟩
      simp [reportResult, hv]
  · refine ⟨(resolve content byteStart byteEnd).startLineNr,
      (resolve content byteStart byteEnd).endLineNr,
      excerpt content (resolve content byteStart byteEnd),
      max 4 (numDigits (resolve content byteStart byteEnd).endLineNr), ?_⟩
    simp [reportResult]

theorem scanLoop_cons_cont (byteStart byteEnd code i : Nat) (rest : List Nat)
    (s s2 : ScanState)
    (h : scanStep byteStart byteEnd code i s = (s2, false)) :
    scanLoop byteStart byteEnd (code :: rest) i s =
      scanLoop byteStart byteEnd rest (i + 1) s2 := by
  rw [scanLoop_cons, h]

/-- Running the scan across a block of `m` line terminators that all lie
strictly before `byteStart` advances both line counters and the byte
offset by `m` and moves the recorded line start past the block. -/
theorem scanLoop_replicate_nl (byteStart byteEnd : Nat) (h : byteStart ≤ byteEnd) :
    ∀ (m i : Nat) (s : ScanState) (rest : List Nat), 0 < m →
    s.byteIndex + m ≤ byteStart →
    scanLoop byteStart byteEnd (List.replicate m 10 ++ rest) i s =
      scanLoop byteStart byteEnd rest (i + m)
        { s with startLineNr := s.startLineNr + m,
                 startLineStart := i + m,
                 endLineNr := s.endLineNr + m,
                 byteIndex := s.byteIndex + m } := by
  intro m
  induction m with
  | zero => intro i s rest hpos hm; exact absurd hpos (lt_irrefl 0)
  | succ m2 ih =>
    intro i s rest hpos hm
    have hlt : s.byteIndex < byteStart := by omega
    have hb : s.byteIndex < byteEnd := by omega
    have hstep : scanStep byteStart byteEnd 10 i s =
        ({ s with startLineNr := s.startLineNr + 1, startLineStart := i + 1,
                  endLineNr := s.endLineNr + 1, byteIndex := s.byteIndex + 1 }, false) := by
      rw [scanStep_nl byteStart byteEnd 10 i s rfl hb]
      simp [hlt, Nat.ne_of_lt hlt]
    rw [List.replicate_succ, List.cons_append,
        scanLoop_cons_cont byteStart byteEnd 10 i _ s _ hstep]
    rcases Nat.eq_zero_or_pos m2 with hm2 | hm2
    · subst hm2
      simp [List.replicate]
    · rw [ih (i + 1) _ rest hm2 (by simp only []; omega)]
      have harith : i + 1 + m2 = i + (m2 + 1) := by omega
      rw [harith]
      congr 1
      simp [ScanState.mk.injEq]
      omega

/-- A source of 9999 line terminators followed by "a": the final
character sits on 0-based line 9999, 1-based line 10000. -/
def bigSrc : List Nat := List.replicate 9999 10 ++ [97]

/-- Counterexample to C7 as stated: for a finding ending on 1-based line
10000 the code pads to `max(4, digits(9999)) = 4`, while the claim's
formula gives `max(4, digits(10000)) = 5` — the code measures the
0-based counter, not the 1-based line number. -/
theorem claim7_counterexample :
    reportPad bigSrc 9999 10000 = 4 ∧
    (resolve bigSrc 9999 10000).endLineNr + 1 = 10000 ∧
    max 4 (numDigits 10000) = 5 := by
  have hres : resolve bigSrc 9999 10000 =
      { startLineNr := 9999, startLineStart := 9999, endLineNr := 9999,
        endLineEnd := none, startIdx := 9999, stopIdx := 0, byteIndex := 10000 } := by
    unfold resolve bigSrc
    rw [scanLoop_replicate_nl 9999 10000 (by omega) 9999 0 initState [97]
      (by omega) (by decide)]
    decide
  refine ⟨?_, ?_, by decide⟩
  · unfold reportPad
    rw [hres]
    decide
  · rw [hres]

/-- Claim C7 (amended): the padding width equals
`max(4, digitCount(endLine0))` where `endLine0` is the 0-based end line
counter (one less than the printed 1-based end line); this coincides
with the claim's `max(4, digitCount(endLine))` exactly when the 0-based
and 1-based end line have the same digit count. -/
theorem claim7_thm (content : List Nat) (byteStart byteEnd : Nat) :
    reportPad content byteStart byteEnd =
      max 4 (numDigits (resolve content byteStart byteEnd).endLineNr) ∧
    (numDigits ((resolve content byteStart byteEnd).endLineNr + 1) =
        numDigits (resolve content byteStart byteEnd).endLineNr →
      reportPad content byteStart byteEnd =
        max 4 (numDigits ((resolve content byteStart byteEnd).endLineNr + 1))) := by
  refine ⟨rfl, ?_⟩
  intro hd
  rw [hd]
  rfl

/-- Witness for C7 at the source "hi", span `[0, 1)` (end line 1-based 1,
0-based 0, equal digit counts). -/
theorem claim7_witness :
    numDigits ((resolve [104, 105] 0 1).endLineNr + 1) =
      numDigits (resolve [104, 105] 0 1).endLineNr ∧
    reportPad [104, 105] 0 1 =
      max 4 (numDigits ((resolve [104, 105] 0 1).endLineNr + 1)) :=
  ⟨by decide, (claim7_thm [104, 105] 0 1).2 (by decide)⟩

/-- Translation of the split-on-line-terminator call on code-unit lists. -/
def splitOnNl : List Nat → List (List Nat)
  | [] => [[]]
  | c :: rest =>
    match splitOnNl rest with
    | [] => [[c]]
    | h :: t => if c = 10 then [] :: h :: t else (c :: h) :: t

/-- One printable line of the scanner's output, abstracted from the
exact escape-sequence styling. -/
inductive OutEvent where
  | blank : OutEvent
  | header (path : List Nat) (line1 : Nat) : OutEvent
  | codeLine (nr1 pad : Nat) (text : List Nat) : OutEvent
  | summary (count : Nat) : OutEvent
deriving Repr, DecidableEq

/-- Output of one `report` call given the running `found` counter: the
separator blank before every finding after the first, the
`path:startLine` header, and one numbered line per excerpt line;
returns the updated counter. -/
def reportOut (path content : List Nat) (o : Options) (found : Nat)
    (sp : Nat × Nat) : List OutEvent × Nat :=
  match reportResult content o.skipPattern sp.1 sp.2 with
  | .vetoed => ([], found)
  | .emitted sl _ src pad =>
    let sep : List OutEvent := if found = 0 then [] else [.blank]
    let lines := (splitOnNl src).enum.map
      (fun p => OutEvent.codeLine (sl + p.1 + 1) pad p.2)
    (sep ++ [.header path (sl + 1)] ++ lines, found + 1)

/-- Report each classified span of a file in visit order, threading the
`found` counter. -/
def emitAll (path content : List Nat) (o : Options) :
    List (Nat × Nat) → Nat → List OutEvent × Nat
  | [], found => ([], found)
  | f :: fs, found =>
    let r1 := reportOut path content o found f
    let r2 := emitAll path content o fs r1.2
    (r1.1 ++ r2.1, r2.2)

/-- A directory tree in listing order: each file carries its name, its
text, the parser's module base offset and its syntax tree. -/
inductive FS where
  | file (name content : List Nat) (baseOff : Nat) (tree : Node) : FS
  | dir (name : List Nat) (entries : List FS) : FS

/-- Whether `l` ends with `sfx`. -/
def endsWithList (l sfx : List Nat) : Bool :=
  startsWithList l.reverse sfx.reverse

/-- Whether the file extension is `.jsx` or `.tsx`. -/
def extIsMarkup (name : List Nat) : Bool :=
  endsWithList name [46, 106, 115, 120] || endsWithList name [46, 116, 115, 120]

mutual
/-- Translation of `readFiles`: process matching files (after the skip-files veto) and
recurse into directories, in listing order, threading the counter. -/
def walkFS (o : Options) (found : Nat) : FS → List OutEvent × Nat
  | .file name content baseOff tree =>
    if extIsMarkup name then
      if o.skipFiles.any (fun p => containsSub name p) then ([], found)
      else emitAll name content o (visit o baseOff tree) found
    else ([], found)
  | .dir _ entries => walkFSList o found entries

def walkFSList (o : Options) (found : Nat) : List FS → List OutEvent × Nat
  | [] => ([], found)
  | e :: es =>
    let r1 := walkFS o found e
    let r2 := walkFSList o r1.2 es
    (r1.1 ++ r2.1, r2.2)
end

/-- One whole invocation: walk from the root with the counter at 0, then
the `> Found N strings` summary. -/
def runScan (root : FS) (o : Options) : List OutEvent :=
  let r := walkFS o 0 root
  r.1 ++ [OutEvent.summary r.2]

/-- Two-file demo tree: `a.tsx` containing a text finding, and a nested
directory with a second file. -/
def demoFS : FS :=
  .dir [100] [
    .file [97, 46, 116, 115, 120] [60, 112, 62, 104, 105, 60, 47, 112, 62] 0
      (.container [.jsxText [104, 105] 3 5]),
    .dir [115, 117, 98] [
      .file [98, 46, 106, 115, 120] [60, 112, 62, 104, 111, 60, 47, 112, 62] 0
        (.container [.jsxText [104, 111] 3 5])]]

theorem runScan_demo :
    runScan demoFS defaultOpts =
      [.header [97, 46, 116, 115, 120] 1,
       .codeLine 1 4 [60, 112, 62, 104, 105, 60, 47, 112, 62],
       .blank,
       .header [98, 46, 106, 115, 120] 1,
       .codeLine 1 4 [60, 112, 62, 104, 111, 60, 47, 112, 62],
       .summary 2] := by decide

/-- Claim C8: the whole scan is a pure function of the input tree, the
options and the listing order — the embedding threads the single mutable
counter explicitly and nothing else feeds the output, so two runs over
identical input in identical order produce identical output, findings
order and summary count included. -/
theorem claim8_thm (root1 root2 : FS) (o1 o2 : Options)
    (hr : root1 = root2) (ho : o1 = o2) :
    runScan root1 o1 = runScan root2 o2 := by
  subst hr
  subst ho
  rfl

/-- Witness for C8: two runs over the demo tree with default options. -/
theorem claim8_witness : runScan demoFS defaultOpts = runScan demoFS defaultOpts :=
  claim8_thm demoFS demoFS defaultOpts defaultOpts rfl rfl
